import Mathlib

/-!
Verification development for the review-analysis batch/merge/consolidation
pipeline (`src/lib/reviewProcessor.ts`, `src/lib/reviewProcessorEdge.ts`,
`src/lib/reviewProcessorStreamV2.ts` and the route/page orchestration code).

The JavaScript source is embedded shallowly:

* strings are Lean `String`s; `String.prototype.toLowerCase` is modelled on
  its ASCII fragment (the inputs of interest are ASCII);
* `str.split(/\s+/)` is modelled faithfully, including the empty tokens that
  JavaScript produces for leading/trailing whitespace;
* JavaScript `Set`-based deduplication (insertion order, first occurrence
  wins, case-sensitive string equality) is modelled by `dedupFirst`;
* objects used as string-keyed maps (`CategoryInsights`) are modelled as
  insertion-ordered association lists;
* the OpenAI completion collaborator is a parameter: an oracle from
  (batch index, attempt index) to a `CompletionResult`; a thrown error is a
  `CompletionResult.err` carrying the error message;
* `JSON.parse` is a parameter `parse : String → Except String CategoryInsights`
  (it may throw); the only concrete fact about it that the source relies on is
  that parsing the literal two-character text `"{}"` yields the empty object,
  which appears as a hypothesis `parse jsonEmptyText = .ok []`;
* the floating-point comparison `commonWords.length >= min * 0.5` is exact for
  the integer ranges involved, so it is rendered as `min ≤ 2 * commonWords`;
  dollar costs are modelled in `ℚ` (the per-token rates are exact decimals).
-/

/-- Whitespace test of the JavaScript regexp class `\s` (by code point). -/
def isJsSpace (c : Char) : Bool :=
  let n := c.toNat
  n = 0x20 || n = 0x9 || n = 0xa || n = 0xb || n = 0xc || n = 0xd ||
  n = 0xa0 || n = 0x1680 || (0x2000 ≤ n && n ≤ 0x200a) || n = 0x2028 ||
  n = 0x2029 || n = 0x202f || n = 0x205f || n = 0x3000 || n = 0xfeff

/-- ASCII fragment of JavaScript `String.prototype.toLowerCase`, applied per
character (written on the character list so that it evaluates by kernel
reduction). -/
def jsLower (s : String) : String :=
  String.mk (s.data.map Char.toLower)

/-- Accumulator pass collecting the maximal runs of non-whitespace characters.
The first argument is the reversed current run. -/
def splitRunsGo (cur : List Char) : List Char → List (List Char)
  | [] => if cur.isEmpty then [] else [cur.reverse]
  | c :: cs =>
    if isJsSpace c then
      if cur.isEmpty then splitRunsGo [] cs else cur.reverse :: splitRunsGo [] cs
    else
      splitRunsGo (c :: cur) cs

/-- Maximal non-whitespace runs of a character list. -/
def splitRuns (l : List Char) : List (List Char) :=
  splitRunsGo [] l

/-- JavaScript `s.split(/\s+/)`: the regexp greedily matches each maximal
whitespace run, so the pieces are the maximal non-whitespace runs, plus an
empty string in front when the string starts with whitespace, an empty string
at the back when it ends with whitespace, and `[""]` for the empty string. -/
def jsSplitWs (s : String) : List String :=
  match s.toList with
  | [] => [""]
  | c :: cs =>
    let l := c :: cs
    let front : List String := if isJsSpace c then [""] else []
    let back : List String :=
      if isJsSpace (l.getLast (List.cons_ne_nil c cs)) then [""] else []
    front ++ (splitRuns l).map (fun w => String.mk w) ++ back

/-- Token list of a pattern as the source computes it:
`pattern.toLowerCase().split(/\s+/)`. -/
def jsWords (p : String) : List String :=
  jsSplitWs (jsLower p)

/-- Count of `words1.filter(word => words2.includes(word) && word.length > 3)`:
the entries of the first token list (counted with multiplicity) that occur in
the second token list and have length greater than 3. -/
def commonWordCount (w1 w2 : List String) : Nat :=
  (w1.filter (fun w => w2.contains w && decide (3 < w.length))).length

/-- One extracted insight (`ProcessedInsight`).  The pattern is optional
because `areSimilarInsights` is typed over `{ pattern?: string }` and JSON
input may omit the field; a missing pattern behaves like the JavaScript value
`undefined`. -/
structure Insight where
  quotes : List String
  context : String
  pattern : Option String
deriving DecidableEq

/-- Core of `areSimilarInsights` on two present patterns: lower-case, split on
whitespace, count the first pattern's tokens of length > 3 that occur among
the second pattern's tokens, and compare against half the smaller token count.
The JavaScript comparison `c >= m * 0.5` over integers `c`, `m` in float range
is exactly `m ≤ 2 * c`. -/
def similarPatterns (p1 p2 : String) : Bool :=
  decide (min (jsWords p1).length (jsWords p2).length ≤
    2 * commonWordCount (jsWords p1) (jsWords p2))

/-- Guarded similarity on optional patterns: the source guard
`if (insight1.pattern && insight2.pattern)` fails for a missing pattern
(`undefined`) and for the empty string (both falsy), and the function returns
`false` below the guard. -/
def simPat : Option String → Option String → Bool
  | some p1, some p2 =>
    if p1 = "" || p2 = "" then false else similarPatterns p1 p2
  | _, _ => false

/-- The similarity predicate `areSimilarInsights` of
`reviewProcessor.ts` / `reviewProcessorEdge.ts`. -/
def areSimilarInsights (a b : Insight) : Bool :=
  simPat a.pattern b.pattern

/-- JavaScript `Array.from(new Set(l))`: keep the first occurrence of each
string (insertion order of the `Set`), drop later duplicates; string equality
is exact and case-sensitive.  The first argument collects the strings already
seen. -/
def dedupFirstGo (seen : List String) : List String → List String
  | [] => []
  | x :: xs =>
    if seen.contains x then dedupFirstGo seen xs
    else x :: dedupFirstGo (x :: seen) xs

/-- Deduplication keeping first occurrences, see `dedupFirstGo`. -/
def dedupFirst (l : List String) : List String :=
  dedupFirstGo [] l

/-- The updated insight produced when `consolidateResults` finds an existing
insight `e` similar to the incoming insight `i`: quotes become
`Array.from(new Set([...e.quotes, ...i.quotes]))`, context is replaced when
`i.context.length > e.context.length`, and the pattern is untouched. -/
def mergedInsight (e i : Insight) : Insight :=
  { quotes := dedupFirst (e.quotes ++ i.quotes)
    context := if e.context.length < i.context.length then i.context else e.context
    pattern := e.pattern }

/-- Merging one incoming insight into the accumulated insight list of a
category (the inner loop body of `consolidateResults`): `find` the first
existing insight similar to the incoming one and update it in place, else
push a fresh copy `{ quotes: [...i.quotes], context: i.context,
pattern: i.pattern }` at the end. -/
def mergeInsightIntoList : List Insight → Insight → List Insight
  | [], i => [{ quotes := i.quotes, context := i.context, pattern := i.pattern }]
  | e :: rest, i =>
    if areSimilarInsights e i then mergedInsight e i :: rest
    else e :: mergeInsightIntoList rest i

/-- The `CategoryInsights` exchange structure: a JavaScript object keyed by
category name, modelled as an insertion-ordered association list (JavaScript
objects have no duplicate keys and `Object.entries` follows insertion
order). -/
abbrev CategoryInsights := List (String × List Insight)

/-- Reading `m[c]` on the object model: the value of the first entry with the
given key, `[]` (no insights) when the key is absent. -/
def getCat : CategoryInsights → String → List Insight
  | [], _ => []
  | (k, v) :: rest, c => if k = c then v else getCat rest c

/-- Writing `m[c] = v` on the object model: replace the value of the first
entry with the given key, or append a fresh entry when the key is absent
(JavaScript insertion order). -/
def setCat : CategoryInsights → String → List Insight → CategoryInsights
  | [], c, v => [(c, v)]
  | (k, w) :: rest, c, v =>
    if k = c then (c, v) :: rest else (k, w) :: setCat rest c v

/-- Body of the middle loop of `consolidateResults`: for one
`[category, data]` entry of a batch result, ensure the category exists in the
accumulator and merge each incoming insight in order. -/
def mergeCategoryEntry (acc : CategoryInsights) (entry : String × List Insight) :
    CategoryInsights :=
  setCat acc entry.1 (entry.2.foldl mergeInsightIntoList (getCat acc entry.1))

/-- Merging one whole batch result into the accumulator (the outer two loops
of `consolidateResults` for a fixed `result`). -/
def mergeResult (acc : CategoryInsights) (r : CategoryInsights) : CategoryInsights :=
  r.foldl mergeCategoryEntry acc

/-- The basic consolidation `consolidateResults(results)` of
`reviewProcessor.ts` / `reviewProcessorEdge.ts`: fold every batch result into
an initially empty accumulator. -/
def consolidateResults (results : List CategoryInsights) : CategoryInsights :=
  results.foldl mergeResult []

/-- One review record. -/
structure Review where
  content : String
  rating : Int
  title : Option String
deriving DecidableEq

/-- The batching loop `for (i = 0; i < reviews.length; i += batchSize)
batches.push(reviews.slice(i, i + batchSize))`, written as the equivalent
take/drop recursion (`slice(i, i + B)` is `take B (drop i l)`).  The source
only ever runs it with a positive batch size (50, 100 or 200); for `B = 0`
the source loop would not terminate on a non-empty input, and that case is
out of the modelled domain (rendered here as no batches). -/
def createBatches (B : Nat) (l : List α) : List (List α) :=
  match B, l with
  | _, [] => []
  | 0, _ :: _ => []
  | B + 1, x :: xs =>
    (x :: xs).take (B + 1) :: createBatches (B + 1) ((x :: xs).drop (B + 1))
termination_by l.length
decreasing_by simp_all [List.length_drop]; omega

/-- Result of one call to the external completion collaborator: either the
message content of the first choice (with `none` for JavaScript `null`)
together with the reported token usage, or a thrown error carrying its
message. -/
inductive CompletionResult where
  | ok (content : Option String) (promptTokens completionTokens : Nat)
  | err (message : String)
deriving DecidableEq

/-- The two-character JSON text of the empty object. -/
def jsonEmptyText : String := "\x7b\x7d"

/-- JavaScript `content || '\x7b\x7d'`: `null` and the empty string are falsy
and are replaced by the empty-object text. -/
def falsyDefault : Option String → String
  | none => jsonEmptyText
  | some s => if s = "" then jsonEmptyText else s

/-- GPT-4o-mini pricing of a batch call,
`(promptTokens / 1e6) * 0.15 + (completionTokens / 1e6) * 0.60`, in exact
rational arithmetic. -/
def miniCost (pt ct : Nat) : ℚ :=
  (pt : ℚ) / 1000000 * (15 / 100) + (ct : ℚ) / 1000000 * (60 / 100)

/-- GPT-4o pricing of a consolidation call,
`(promptTokens / 1e6) * 2.50 + (completionTokens / 1e6) * 10.00`, in exact
rational arithmetic. -/
def bigCost (pt ct : Nat) : ℚ :=
  (pt : ℚ) / 1000000 * (25 / 10) + (ct : ℚ) / 1000000 * 10

/-- Outcome record `{ insights, tokensUsed, cost }` of a batch or
consolidation call. -/
structure BatchOutcome where
  insights : CategoryInsights
  tokensUsed : Nat
  cost : ℚ
deriving DecidableEq

/-- The `processBatch` body shared by all three processor classes, given the
completion collaborator's answer for this call: a thrown completion error
propagates; otherwise the message content (with falsy content replaced by the
empty-object text) is fed to `JSON.parse` — whose own exception also
propagates, since `processBatch` has no try/catch — and the parsed insights
are returned with token count and cost. -/
def processBatch (parse : String → Except String CategoryInsights)
    (r : CompletionResult) : Except String BatchOutcome :=
  match r with
  | .err m => .error m
  | .ok content pt ct =>
    match parse (falsyDefault content) with
    | .error e => .error e
    | .ok ins => .ok ⟨ins, pt + ct, miniCost pt ct⟩

/-- Helper for JavaScript `String.prototype.includes`: does the second list
start with the first? -/
def listStartsWith : List Char → List Char → Bool
  | _, [] => true
  | [], _ :: _ => false
  | a :: as, b :: bs => a = b && listStartsWith as bs

/-- Helper for JavaScript `String.prototype.includes`: does the pattern occur
as a contiguous sublist? -/
def listContainsSub (pat : List Char) : List Char → Bool
  | [] => pat.isEmpty
  | c :: cs => listStartsWith (c :: cs) pat || listContainsSub pat cs

/-- JavaScript `s.includes(pat)`. -/
def strIncludes (s pat : String) : Bool :=
  listContainsSub pat.toList s.toList

/-- The rate-limit classifier of the catch blocks:
`msg.toLowerCase().includes('rate limit') || msg.toLowerCase().includes('429')`. -/
def isRateLimitMsg (m : String) : Bool :=
  strIncludes (jsLower m) "rate limit" || strIncludes (jsLower m) "429"

/-- The timeout classifier of the Edge catch block:
`msg.toLowerCase().includes('timeout') || msg.toLowerCase().includes('timed out')`. -/
def isTimeoutMsg (m : String) : Bool :=
  strIncludes (jsLower m) "timeout" || strIncludes (jsLower m) "timed out"

/-- Mutable run accumulators of a processing loop: `allResults`,
`totalTokensUsed`, `totalCost` and `reviewsProcessedCount`. -/
structure StreamState where
  results : List CategoryInsights
  tokensUsed : Nat
  cost : ℚ
  reviewsProcessed : Nat
deriving DecidableEq

/-- Advancing the accumulators after a successful batch. -/
def stepState (st : StreamState) (out : BatchOutcome) (batchLen : Nat) : StreamState :=
  ⟨st.results ++ [out.insights], st.tokensUsed + out.tokensUsed,
   st.cost + out.cost, st.reviewsProcessed + batchLen⟩

/-- The batch loop of `ReviewProcessorStreamV2.processReviewsStream`:
sequentially process batch `i`; on success push the result and advance; when
the thrown message classifies as a rate limit, wait (a no-op here) and retry
the same batch (`i--; continue`), which is one more completion call and hence
a higher attempt index; any other thrown error propagates and aborts the run.
The oracle maps (batch index, attempt index) to that call's outcome.  `fuel`
bounds the number of loop iterations; `none` means the fuel ran out (an
unbounded retry sequence in the source). -/
def runStreamLoop (parse : String → Except String CategoryInsights)
    (oracle : Nat → Nat → CompletionResult) (batches : List (List Review)) :
    Nat → Nat → Nat → StreamState → Option (Except String StreamState)
  | 0, _, _, _ => none
  | fuel + 1, i, attempt, st =>
    match batches.get? i with
    | none => some (.ok st)
    | some batch =>
      match processBatch parse (oracle i attempt) with
      | .ok out => runStreamLoop parse oracle batches fuel (i + 1) 0 (stepState st out batch.length)
      | .error m =>
        if isRateLimitMsg m then runStreamLoop parse oracle batches fuel i (attempt + 1) st
        else some (.error m)

/-- The merge inside `ReviewProcessorStreamV2.aiConsolidation`: unlike
`consolidateResults`, it simply concatenates every batch result's insight
lists per category (`mergedInsights[category].insights.push(...data.insights)`). -/
def concatMerge (results : List CategoryInsights) : CategoryInsights :=
  results.foldl (fun acc r => r.foldl (fun a e => setCat a e.1 (getCat a e.1 ++ e.2)) acc) []

/-- The `aiConsolidation` try/catch of `reviewProcessor.ts` (and, given the
already-merged structure, of the other processors): on a successful completion
call whose content parses, return the parsed insights with GPT-4o token count
and cost; when the call throws or `JSON.parse` throws, fall back to the merged
input with zero tokens and zero cost. -/
def aiConsolidation (parse : String → Except String CategoryInsights)
    (r : CompletionResult) (merged : CategoryInsights) : BatchOutcome :=
  match r with
  | .err _ => ⟨merged, 0, 0⟩
  | .ok content pt ct =>
    match parse (falsyDefault content) with
    | .error _ => ⟨merged, 0, 0⟩
    | .ok ins => ⟨ins, pt + ct, bigCost pt ct⟩

/-- `ReviewProcessorStreamV2.aiConsolidation`: first concatenate all batch
results, then run the consolidation call with the concatenation as the
fallback value. -/
def aiConsolidationV2 (parse : String → Except String CategoryInsights)
    (r : CompletionResult) (allResults : List CategoryInsights) : BatchOutcome :=
  aiConsolidation parse r (concatMerge allResults)

/-- End-to-end `processReviewsStream`: batch the reviews (batch size 100), run
the batch loop, then run the AI consolidation (`consOracle` is that single
call's outcome) and return the final insights together with the final
accumulators.  `none` is fuel exhaustion, `some (.error m)` a thrown error
escaping the generator, `some (.ok _)` a completed run. -/
def runStreamV2 (parse : String → Except String CategoryInsights)
    (oracle : Nat → Nat → CompletionResult) (consOracle : CompletionResult)
    (reviews : List Review) (fuel : Nat) :
    Option (Except String (CategoryInsights × StreamState)) :=
  match runStreamLoop parse oracle (createBatches 100 reviews) fuel 0 0 ⟨[], 0, 0, 0⟩ with
  | none => none
  | some (.error m) => some (.error m)
  | some (.ok st) =>
    let fin := aiConsolidationV2 parse consOracle st.results
    some (.ok (fin.insights,
      ⟨st.results, st.tokensUsed + fin.tokensUsed, st.cost + fin.cost, st.reviewsProcessed⟩))

/-- The batch loop of `ReviewProcessorEdge.processReviews`.  The chunking of
batches into groups of five only inserts fixed delays between chunks (no-ops
here); within the loop the behaviour per batch index is: on success push and
advance; on a thrown error compute `isTimeout` and `isRateLimit` from the
message; when the error is a rate limit and not a timeout, wait and retry the
same batch (`i--; continue`); when it is both a timeout and a rate limit, the
`if (isTimeout)` branch wins, so there is no retry, but the final
`if (!isRateLimit) throw` does not fire either and the loop advances past the
batch, omitting its contribution; every other error is rethrown after the
status update and aborts the run. -/
def runEdgeLoop (parse : String → Except String CategoryInsights)
    (oracle : Nat → Nat → CompletionResult) (batches : List (List Review)) :
    Nat → Nat → Nat → StreamState → Option (Except String StreamState)
  | 0, _, _, _ => none
  | fuel + 1, i, attempt, st =>
    match batches.get? i with
    | none => some (.ok st)
    | some batch =>
      match processBatch parse (oracle i attempt) with
      | .ok out => runEdgeLoop parse oracle batches fuel (i + 1) 0 (stepState st out batch.length)
      | .error m =>
        if !isTimeoutMsg m && isRateLimitMsg m then
          runEdgeLoop parse oracle batches fuel i (attempt + 1) st
        else if isRateLimitMsg m then
          runEdgeLoop parse oracle batches fuel (i + 1) 0 st
        else
          some (.error m)

/-- The final per-category consolidation loop of the chunked orchestrator
(`page.tsx`): walk the merged categories in order; a category with at most 3
insights is skipped (`consolidatedResults[category] = mergedInsights[category]`)
and contributes no tokens or cost; otherwise the per-category consolidation
endpoint is called — `some` models a 2xx response with its insights, tokens
and cost, `none` models a non-ok response or a thrown fetch error, both of
which fall back to the unconsolidated insights. -/
def consolidateCategoryPhase
    (oracle : String → List Insight → Option (List Insight × Nat × ℚ)) :
    CategoryInsights → CategoryInsights × Nat × ℚ
  | [] => ([], 0, 0)
  | (cat, ins) :: rest =>
    let tail := consolidateCategoryPhase oracle rest
    if ins.length ≤ 3 then ((cat, ins) :: tail.1, tail.2.1, tail.2.2)
    else
      match oracle cat ins with
      | some (ins2, t, c) => ((cat, ins2) :: tail.1, t + tail.2.1, c + tail.2.2)
      | none => ((cat, ins) :: tail.1, tail.2.1, tail.2.2)

/-- Natural tokenization used by the claim's wording: lower-case the pattern
and split it on whitespace into tokens (the maximal non-whitespace runs,
without the boundary artifacts of the JavaScript `split`). -/
def specTokens (p : String) : List String :=
  (splitRuns (jsLower p).toList).map (fun w => String.mk w)

/-- Count of the distinct tokens shared between two token lists that have
length greater than 3, per the claim's wording of the similarity rule. -/
def distinctSharedCount (t1 t2 : List String) : Nat :=
  (dedupFirst (t1.filter (fun w => t2.contains w && decide (3 < w.length)))).length

/-- Predicate written from the claim's words (C1), for comparison with the
source's `areSimilarInsights`: true when both patterns are present and
non-empty and the count of distinct shared tokens of length greater than 3 is
at least 50% of the smaller of the two token counts; false when either
pattern is empty or absent. -/
def similarInsightsClaim (a b : Insight) : Bool :=
  match a.pattern, b.pattern with
  | some p1, some p2 =>
    if p1 = "" || p2 = "" then false
    else
      decide (min (specTokens p1).length (specTokens p2).length ≤
        2 * distinctSharedCount (specTokens p1) (specTokens p2))
  | _, _ => false

/-- Absence of similarity in the direction the merge loop tests it. -/
abbrev NotSim (a b : Insight) : Prop :=
  areSimilarInsights a b = false

/-- Absence of similarity in both argument orders (the predicate is not
symmetric in general). -/
abbrev NotSimBoth (a b : Insight) : Prop :=
  areSimilarInsights a b = false ∧ areSimilarInsights b a = false

theorem areSimilarInsights_congr_pattern (a a' b b' : Insight)
    (ha : a.pattern = a'.pattern) (hb : b.pattern = b'.pattern) :
    areSimilarInsights a b = areSimilarInsights a' b' := by
  unfold areSimilarInsights
  rw [ha, hb]

theorem mergedInsight_pattern (e i : Insight) :
    (mergedInsight e i).pattern = e.pattern := rfl

theorem contains_eq_mem (l : List String) (x : String) :
    l.contains x = decide (x ∈ l) := by
  simp

theorem dedupFirstGo_cons_mem (seen ys : List String) (y : String) (h : y ∈ seen) :
    dedupFirstGo seen (y :: ys) = dedupFirstGo seen ys := by
  simp [dedupFirstGo, contains_eq_mem, h]

theorem dedupFirstGo_cons_not_mem (seen ys : List String) (y : String) (h : y ∉ seen) :
    dedupFirstGo seen (y :: ys) = y :: dedupFirstGo (y :: seen) ys := by
  simp [dedupFirstGo, contains_eq_mem, h]

theorem mem_dedupFirstGo (seen l : List String) (x : String) :
    x ∈ dedupFirstGo seen l ↔ x ∈ l ∧ x ∉ seen := by
  induction l generalizing seen with
  | nil => simp [dedupFirstGo]
  | cons y ys ih =>
    by_cases hy : y ∈ seen
    · rw [dedupFirstGo_cons_mem seen ys y hy, ih]
      constructor
      · rintro ⟨hx, hs⟩
        exact ⟨List.mem_cons_of_mem _ hx, hs⟩
      · rintro ⟨hx, hs⟩
        rcases List.mem_cons.1 hx with rfl | hx'
        · exact absurd hy hs
        · exact ⟨hx', hs⟩
    · rw [dedupFirstGo_cons_not_mem seen ys y hy]
      simp only [List.mem_cons, ih]
      constructor
      · rintro (rfl | ⟨hx, hs⟩)
        · exact ⟨Or.inl rfl, hy⟩
        · simp only [List.mem_cons, not_or] at hs
          exact ⟨Or.inr hx, hs.2⟩
      · rintro ⟨rfl | hx, hs⟩
        · exact Or.inl rfl
        · by_cases hxy : x = y
          · exact Or.inl hxy
          · exact Or.inr ⟨hx, by simp [hs, hxy]⟩

theorem mem_dedupFirst (l : List String) (x : String) :
    x ∈ dedupFirst l ↔ x ∈ l := by
  simp [dedupFirst, mem_dedupFirstGo]

theorem dedupFirstGo_sublist (seen l : List String) :
    (dedupFirstGo seen l).Sublist l := by
  induction l generalizing seen with
  | nil => simp [dedupFirstGo]
  | cons y ys ih =>
    by_cases hy : y ∈ seen
    · rw [dedupFirstGo_cons_mem seen ys y hy]
      exact (ih seen).cons y
    · rw [dedupFirstGo_cons_not_mem seen ys y hy]
      exact (ih (y :: seen)).cons₂ y

theorem dedupFirst_sublist (l : List String) : (dedupFirst l).Sublist l :=
  dedupFirstGo_sublist [] l

theorem dedupFirstGo_nodup (seen l : List String) :
    (dedupFirstGo seen l).Nodup := by
  induction l generalizing seen with
  | nil => simp [dedupFirstGo]
  | cons y ys ih =>
    by_cases hy : y ∈ seen
    · rw [dedupFirstGo_cons_mem seen ys y hy]
      exact ih seen
    · rw [dedupFirstGo_cons_not_mem seen ys y hy]
      refine List.nodup_cons.2 ⟨fun hmem => ?_, ih (y :: seen)⟩
      rcases (mem_dedupFirstGo _ _ _).1 hmem with ⟨_, hns⟩
      simp at hns

theorem dedupFirst_nodup (l : List String) : (dedupFirst l).Nodup :=
  dedupFirstGo_nodup [] l

theorem mergeList_append_of_not_sim (acc : List Insight) (i : Insight)
    (h : ∀ e ∈ acc, areSimilarInsights e i = false) :
    mergeInsightIntoList acc i =
      acc ++ [{ quotes := i.quotes, context := i.context, pattern := i.pattern }] := by
  induction acc with
  | nil => rfl
  | cons e rest ih =>
    have he : areSimilarInsights e i = false := h e (List.mem_cons_self e rest)
    simp only [mergeInsightIntoList, he, Bool.false_eq_true, if_false, List.cons_append]
    rw [ih (fun x hx => h x (List.mem_cons_of_mem e hx))]

theorem mergeList_found (pre post : List Insight) (e i : Insight)
    (hpre : ∀ x ∈ pre, areSimilarInsights x i = false)
    (he : areSimilarInsights e i = true) :
    mergeInsightIntoList (pre ++ e :: post) i = pre ++ mergedInsight e i :: post := by
  induction pre with
  | nil => simp [mergeInsightIntoList, he]
  | cons x rest ih =>
    have hx : areSimilarInsights x i = false := hpre x (List.mem_cons_self x rest)
    simp only [List.cons_append, mergeInsightIntoList, hx, Bool.false_eq_true, if_false,
      List.append_eq]
    rw [ih (fun y hy => hpre y (List.mem_cons_of_mem x hy))]

theorem mem_mergeList_pattern (acc : List Insight) (i : Insight) :
    ∀ b ∈ mergeInsightIntoList acc i,
      (∃ a ∈ acc, b.pattern = a.pattern) ∨ b.pattern = i.pattern := by
  induction acc with
  | nil =>
    intro b hb
    simp only [mergeInsightIntoList, List.mem_singleton] at hb
    subst hb
    exact Or.inr rfl
  | cons e rest ih =>
    intro b hb
    by_cases hsim : areSimilarInsights e i = true
    · simp only [mergeInsightIntoList, hsim, if_true, List.mem_cons] at hb
      rcases hb with rfl | hb
      · exact Or.inl ⟨e, List.mem_cons_self e rest, mergedInsight_pattern e i⟩
      · exact Or.inl ⟨b, List.mem_cons_of_mem e hb, rfl⟩
    · simp only [mergeInsightIntoList, hsim, if_false] at hb
      cases hb with
      | head => exact Or.inl ⟨e, List.mem_cons_self e rest, rfl⟩
      | tail _ h =>
        rcases ih b h with ⟨a, ha, hpat⟩ | hpat
        · exact Or.inl ⟨a, List.mem_cons_of_mem e ha, hpat⟩
        · exact Or.inr hpat

theorem pairwise_mergeList (acc : List Insight) (i : Insight)
    (h : acc.Pairwise NotSim) : (mergeInsightIntoList acc i).Pairwise NotSim := by
  induction acc with
  | nil =>
    simp [mergeInsightIntoList]
  | cons e rest ih =>
    rcases List.pairwise_cons.1 h with ⟨hhead, htail⟩
    by_cases hsim : areSimilarInsights e i = true
    · simp only [mergeInsightIntoList, hsim, if_true]
      refine List.pairwise_cons.2 ⟨fun b hb => ?_, htail⟩
      have : areSimilarInsights (mergedInsight e i) b = areSimilarInsights e b :=
        areSimilarInsights_congr_pattern _ _ _ _ (mergedInsight_pattern e i) rfl
      exact this.trans (hhead b hb)
    · simp only [mergeInsightIntoList, hsim, if_false]
      refine List.pairwise_cons.2 ⟨fun b hb => ?_, ih htail⟩
      rcases mem_mergeList_pattern rest i b hb with ⟨a, ha, hpat⟩ | hpat
      · have : areSimilarInsights e b = areSimilarInsights e a :=
          areSimilarInsights_congr_pattern _ _ _ _ rfl hpat
        exact this.trans (hhead a ha)
      · have : areSimilarInsights e b = areSimilarInsights e i :=
          areSimilarInsights_congr_pattern _ _ _ _ rfl hpat
        show areSimilarInsights e b = false
        rw [this]
        exact Bool.eq_false_iff.2 hsim

theorem pairwise_foldl_mergeList (l : List Insight) (acc : List Insight)
    (h : acc.Pairwise NotSim) :
    (l.foldl mergeInsightIntoList acc).Pairwise NotSim := by
  induction l generalizing acc with
  | nil => exact h
  | cons b rest ih =>
    exact ih _ (pairwise_mergeList acc b h)

theorem foldl_mergeList_all_append (l : List Insight) (acc : List Insight)
    (hacc : ∀ a ∈ acc, ∀ b ∈ l, areSimilarInsights a b = false)
    (hl : l.Pairwise NotSim) :
    l.foldl mergeInsightIntoList acc = acc ++ l := by
  induction l generalizing acc with
  | nil => simp
  | cons b rest ih =>
    rcases List.pairwise_cons.1 hl with ⟨hhead, htail⟩
    have hstep : mergeInsightIntoList acc b = acc ++ [b] := by
      rw [mergeList_append_of_not_sim acc b
        (fun e he => hacc e he b (List.mem_cons_self b rest))]
    simp only [List.foldl_cons, hstep]
    rw [ih (acc ++ [b]) ?_ htail]
    · simp
    · intro a ha c hc
      rcases List.mem_append.1 ha with ha' | ha'
      · exact hacc a ha' c (List.mem_cons_of_mem b hc)
      · rcases List.mem_singleton.1 ha' with rfl
        exact hhead c hc

theorem getCat_setCat (m : CategoryInsights) (k c : String) (v : List Insight) :
    getCat (setCat m k v) c = if k = c then v else getCat m c := by
  induction m with
  | nil =>
    by_cases hkc : k = c <;> simp [setCat, getCat, hkc]
  | cons e rest ih =>
    rcases e with ⟨k', v'⟩
    by_cases hk : k' = k
    · subst hk
      by_cases hkc : k' = c <;> simp [setCat, getCat, hkc]
    · by_cases hkc : k' = c
      · subst hkc
        have hne : ¬k = k' := fun h => hk h.symm
        simp [setCat, getCat, hk, hne]
      · simp [setCat, getCat, hk, hkc, ih]

/-- All insight lists that a batch result's entries contribute to one
category, in entry order (a parsed JSON object has no duplicate keys, but the
model handles arbitrary association lists). -/
def flattenOne (r : CategoryInsights) (c : String) : List Insight :=
  ((r.filter (fun e => decide (e.1 = c))).map Prod.snd).flatten

/-- All insights contributed to one category by a list of batch results, in
processing order. -/
def flattenAll (results : List CategoryInsights) (c : String) : List Insight :=
  (results.map (fun r => flattenOne r c)).flatten

theorem getCat_mergeResult (r : CategoryInsights) (acc : CategoryInsights) (c : String) :
    getCat (mergeResult acc r) c =
      (flattenOne r c).foldl mergeInsightIntoList (getCat acc c) := by
  induction r generalizing acc with
  | nil => simp [mergeResult, flattenOne]
  | cons e rest ih =>
    rcases e with ⟨k, ins⟩
    have hstep : mergeResult acc ((k, ins) :: rest) =
        mergeResult (mergeCategoryEntry acc (k, ins)) rest := rfl
    rw [hstep, ih]
    by_cases hk : k = c
    · subst hk
      simp [flattenOne, mergeCategoryEntry, getCat_setCat, List.foldl_append]
    · simp [flattenOne, mergeCategoryEntry, getCat_setCat, hk]

theorem getCat_foldl_mergeResult (results : List CategoryInsights)
    (acc : CategoryInsights) (c : String) :
    getCat (results.foldl mergeResult acc) c =
      (flattenAll results c).foldl mergeInsightIntoList (getCat acc c) := by
  induction results generalizing acc with
  | nil => simp [flattenAll]
  | cons r rest ih =>
    simp only [List.foldl_cons]
    rw [ih, getCat_mergeResult]
    have : flattenAll (r :: rest) c = flattenOne r c ++ flattenAll rest c := by
      simp [flattenAll]
    rw [this, List.foldl_append]

theorem getCat_consolidateResults (results : List CategoryInsights) (c : String) :
    getCat (consolidateResults results) c =
      (flattenAll results c).foldl mergeInsightIntoList [] := by
  have := getCat_foldl_mergeResult results [] c
  simpa [consolidateResults, getCat] using this

theorem commonWordCount_eq_card (w1 w2 : List String) (h1 : w1.Nodup) :
    commonWordCount w1 w2 =
      ((w1.toFinset ∩ w2.toFinset).filter (fun w => 3 < w.length)).card := by
  unfold commonWordCount
  have hnd : (w1.filter (fun w => w2.contains w && decide (3 < w.length))).Nodup :=
    h1.filter _
  rw [← List.toFinset_card_of_nodup hnd, List.toFinset_filter]
  congr 1
  ext w
  simp [Finset.mem_filter, Finset.mem_inter, List.mem_toFinset, and_assoc]

theorem commonWordCount_comm (w1 w2 : List String) (h1 : w1.Nodup) (h2 : w2.Nodup) :
    commonWordCount w1 w2 = commonWordCount w2 w1 := by
  rw [commonWordCount_eq_card w1 w2 h1, commonWordCount_eq_card w2 w1 h2,
    Finset.inter_comm]

theorem createBatches_nil (B : Nat) : createBatches B ([] : List α) = [] := by
  cases B <;> simp [createBatches]

theorem createBatches_join (B : Nat) (l : List α) (hB : 0 < B) :
    (createBatches B l).flatten = l := by
  induction B, l using createBatches.induct with
  | case1 B => simp [createBatches]
  | case2 x xs => omega
  | case3 B x xs ih =>
    rw [createBatches]
    simp only [List.flatten_cons]
    rw [ih (by omega)]
    exact List.take_append_drop _ _

theorem createBatches_length (B : Nat) (l : List α) (hB : 0 < B) :
    (createBatches B l).length = (l.length + B - 1) / B := by
  induction B, l using createBatches.induct with
  | case1 B =>
    rw [createBatches_nil]
    simp only [List.length_nil, Nat.zero_add]
    exact (Nat.div_eq_of_lt (by omega)).symm
  | case2 x xs => omega
  | case3 B x xs ih =>
    rw [createBatches]
    simp only [List.length_cons, List.length_drop]
    rw [ih (by omega)]
    simp only [List.length_cons, List.length_drop, Nat.succ_eq_add_one]
    have hr : xs.length + 1 + (B + 1) - 1 = xs.length + (B + 1) := by omega
    rw [hr, Nat.add_div_right _ (by omega : 0 < B + 1)]
    rcases Nat.le_total (xs.length + 1) (B + 1) with hle | hge
    · have h1 : xs.length + 1 - (B + 1) + (B + 1) - 1 = B := by omega
      rw [h1, Nat.div_eq_of_lt (by omega), Nat.div_eq_of_lt (by omega)]
    · have h1 : xs.length + 1 - (B + 1) + (B + 1) - 1 = xs.length := by omega
      rw [h1]

theorem createBatches_eq_nil_iff (B : Nat) (l : List α) (hB : 0 < B) :
    createBatches B l = [] ↔ l = [] := by
  cases l with
  | nil => simp [createBatches_nil]
  | cons x xs =>
    cases B with
    | zero => omega
    | succ B => simp [createBatches]

theorem createBatches_mem_len (B : Nat) (l : List α) (hB : 0 < B) :
    ∀ b ∈ createBatches B l, 0 < b.length ∧ b.length ≤ B := by
  induction B, l using createBatches.induct with
  | case1 B => simp [createBatches_nil]
  | case2 x xs => omega
  | case3 B x xs ih =>
    intro b hb
    rw [createBatches] at hb
    rcases List.mem_cons.1 hb with rfl | hb'
    · constructor
      · simp [List.length_take]
      · simp [List.length_take]
    · exact ih (by omega) b hb'

theorem createBatches_dropLast_len (B : Nat) (l : List α) (hB : 0 < B) :
    ∀ b ∈ (createBatches B l).dropLast, b.length = B := by
  induction B, l using createBatches.induct with
  | case1 B => simp [createBatches_nil]
  | case2 x xs => omega
  | case3 B x xs ih =>
    intro b hb
    rw [createBatches] at hb
    by_cases hrest : createBatches (B + 1) ((x :: xs).drop (B + 1)) = []
    · rw [hrest] at hb
      simp at hb
    · rcases List.exists_cons_of_ne_nil hrest with ⟨y, ys, hy⟩
      rw [hy] at hb
      rcases List.mem_cons.1 (by simpa [List.dropLast] using hb) with rfl | hb2
      · have hne : (x :: xs).drop (B + 1) ≠ [] := by
          intro hnil
          rw [hnil, createBatches_nil] at hrest
          exact hrest rfl
        have hpos : 0 < ((x :: xs).drop (B + 1)).length := List.length_pos.2 hne
        have hlen : B + 1 < (x :: xs).length := by
          rw [List.length_drop] at hpos
          omega
        simp only [List.length_cons] at hlen
        simp [List.length_take]
        omega
      · rw [← hy] at hb2
        exact ih (by omega) b hb2

theorem createBatches_getLast (B : Nat) (l : List α) (hB : 0 < B) (hl : l ≠ []) :
    ∃ lb, (createBatches B l).getLast? = some lb ∧
      lb.length = (l.length - 1) % B + 1 := by
  induction B, l using createBatches.induct with
  | case1 B => simp at hl
  | case2 x xs => omega
  | case3 B x xs ih =>
    have hlc : (x :: xs).length = xs.length + 1 := rfl
    by_cases hrest : createBatches (B + 1) ((x :: xs).drop (B + 1)) = []
    · have hle : (x :: xs).length ≤ B + 1 := by
        by_contra hgt
        have hne : (x :: xs).drop (B + 1) ≠ [] := by
          intro hnil
          have := congrArg List.length hnil
          rw [List.length_drop] at this
          simp at this
          omega
        exact hne ((createBatches_eq_nil_iff (B + 1) _ (by omega)).1 hrest)
      refine ⟨(x :: xs).take (B + 1), ?_, ?_⟩
      · rw [createBatches, hrest]
        rfl
      · rw [List.length_take]
        have hmod : ((x :: xs).length - 1) % (B + 1) = (x :: xs).length - 1 :=
          Nat.mod_eq_of_lt (by omega)
        rw [hmod]
        omega
    · have hne : (x :: xs).drop (B + 1) ≠ [] := by
        intro hnil
        rw [hnil, createBatches_nil] at hrest
        exact hrest rfl
      rcases ih (by omega) hne with ⟨lb, hlast, hlen⟩
      refine ⟨lb, ?_, ?_⟩
      · rw [createBatches]
        rcases List.exists_cons_of_ne_nil hrest with ⟨y, ys, hy⟩
        rw [hy] at hlast ⊢
        simpa using hlast
      · rw [hlen, List.length_drop]
        have hpos : 0 < ((x :: xs).drop (B + 1)).length := List.length_pos.2 hne
        rw [List.length_drop] at hpos
        have h1 : (x :: xs).length - (B + 1) - 1 + (B + 1) = (x :: xs).length - 1 := by
          omega
        rw [← h1, Nat.add_mod_right]

theorem miniCost_zero : miniCost 0 0 = 0 := by
  simp [miniCost]

theorem processBatch_falsy_content (parse : String → Except String CategoryInsights)
    (hparse : parse jsonEmptyText = .ok []) (pt ct : Nat) :
    processBatch parse (.ok none pt ct) = .ok ⟨[], pt + ct, miniCost pt ct⟩ ∧
      processBatch parse (.ok (some "") pt ct) = .ok ⟨[], pt + ct, miniCost pt ct⟩ := by
  constructor <;> simp [processBatch, falsyDefault, hparse]

theorem runStreamLoop_all_empty (parse : String → Except String CategoryInsights)
    (hparse : parse jsonEmptyText = .ok [])
    (oracle : Nat → Nat → CompletionResult)
    (horacle : ∀ b a, oracle b a = .ok none 0 0)
    (batches : List (List Review)) :
    ∀ fuel i st, batches.length - i < fuel →
      runStreamLoop parse oracle batches fuel i 0 st =
        some (.ok ⟨st.results ++ List.replicate (batches.length - i) [],
          st.tokensUsed, st.cost,
          st.reviewsProcessed + ((batches.drop i).map List.length).sum⟩) := by
  intro fuel
  induction fuel with
  | zero =>
    intro i st h
    omega
  | succ fuel ih =>
    intro i st h
    rcases hget : batches.get? i with _ | batch
    · have hget2 : batches[i]? = none := by
        rw [← List.get?_eq_getElem?]
        exact hget
      have hlen : batches.length ≤ i := List.get?_eq_none.1 hget
      have hdrop : batches.drop i = [] := List.drop_eq_nil_of_le hlen
      have hz : batches.length - i = 0 := by omega
      simp [runStreamLoop, hget, hget2, hdrop, hz]
    · have hlt : i < batches.length := by
        rcases List.get?_eq_some.1 hget with ⟨hl, _⟩
        exact hl
      have hdrop : batches.drop i = batch :: batches.drop (i + 1) := by
        rcases List.get?_eq_some.1 hget with ⟨hl, hv⟩
        rw [List.drop_eq_getElem_cons hl]
        simp [List.get_eq_getElem] at hv
        rw [hv]
      have hbatch := (processBatch_falsy_content parse hparse 0 0).1
      simp only [runStreamLoop, hget, horacle, hbatch]
      rw [ih (i + 1) (stepState st ⟨[], 0 + 0, miniCost 0 0⟩ batch.length) (by omega)]
      have hdrop2 : (batches.map List.length).drop i
          = batch.length :: (batches.map List.length).drop (i + 1) := by
        rw [← List.map_drop, hdrop, ← List.map_drop]
        simp
      have hrep : batches.length - i = (batches.length - (i + 1)) + 1 := by omega
      simp [stepState, miniCost_zero, hdrop2, hrep, List.replicate_succ, Nat.add_assoc]

theorem consolidateCategoryPhase_cons_key
    (oracle : String → List Insight → Option (List Insight × Nat × ℚ))
    (k : String) (v : List Insight) (rest : CategoryInsights) :
    ∃ w, (consolidateCategoryPhase oracle ((k, v) :: rest)).1
      = (k, w) :: (consolidateCategoryPhase oracle rest).1 := by
  simp only [consolidateCategoryPhase]
  by_cases h : v.length ≤ 3
  · exact ⟨v, by simp [h]⟩
  · rcases ho : oracle k v with _ | ⟨⟨ins2, t, c⟩⟩
    · exact ⟨v, by simp [h, ho]⟩
    · exact ⟨ins2, by simp [h, ho]⟩

theorem consolidateCategoryPhase_all_small
    (oracle : String → List Insight → Option (List Insight × Nat × ℚ))
    (m : CategoryInsights) (h : ∀ e ∈ m, e.2.length ≤ 3) :
    consolidateCategoryPhase oracle m = (m, 0, 0) := by
  induction m with
  | nil => rfl
  | cons e rest ih =>
    rcases e with ⟨k, v⟩
    have hv : v.length ≤ 3 := h (k, v) (List.mem_cons_self _ _)
    have hrest := ih (fun e he => h e (List.mem_cons_of_mem _ he))
    simp [consolidateCategoryPhase, hv, hrest]

theorem getCat_consolidateCategoryPhase_skip
    (oracle : String → List Insight → Option (List Insight × Nat × ℚ)) :
    ∀ m : CategoryInsights, (m.map Prod.fst).Nodup →
      ∀ c ins, (c, ins) ∈ m → ins.length ≤ 3 →
        getCat (consolidateCategoryPhase oracle m).1 c = ins := by
  intro m
  induction m with
  | nil =>
    intro _ c ins hmem _
    simp at hmem
  | cons e rest ih =>
    rcases e with ⟨k, v⟩
    intro hnd c ins hmem hle
    simp only [List.map_cons, List.nodup_cons] at hnd
    rcases hnd with ⟨hk, hnd2⟩
    rcases List.mem_cons.1 hmem with hmem1 | hmem2
    · have hck : c = k := congrArg Prod.fst hmem1
      have hiv : ins = v := congrArg Prod.snd hmem1
      subst hck
      subst hiv
      simp [consolidateCategoryPhase, hle, getCat]
    · have hkc : ¬(k = c) := by
        intro hkc
        exact hk (hkc ▸ List.mem_map_of_mem Prod.fst hmem2)
      rcases consolidateCategoryPhase_cons_key oracle k v rest with ⟨w, hw⟩
      rw [hw]
      simp only [getCat, hkc, if_false]
      exact ih hnd2 c ins hmem2 hle

theorem getCat_consolidateCategoryPhase_eligible
    (oracle : String → List Insight → Option (List Insight × Nat × ℚ)) :
    ∀ m : CategoryInsights, (m.map Prod.fst).Nodup →
      ∀ c ins ins2 t κ, (c, ins) ∈ m → 4 ≤ ins.length →
        oracle c ins = some (ins2, t, κ) →
        getCat (consolidateCategoryPhase oracle m).1 c = ins2 := by
  intro m
  induction m with
  | nil =>
    intro _ c ins ins2 t κ hmem _ _
    simp at hmem
  | cons e rest ih =>
    rcases e with ⟨k, v⟩
    intro hnd c ins ins2 t κ hmem hge ho
    simp only [List.map_cons, List.nodup_cons] at hnd
    rcases hnd with ⟨hk, hnd2⟩
    rcases List.mem_cons.1 hmem with hmem1 | hmem2
    · have hck : c = k := congrArg Prod.fst hmem1
      have hiv : ins = v := congrArg Prod.snd hmem1
      subst hck
      subst hiv
      have hnle : ¬(ins.length ≤ 3) := by omega
      simp [consolidateCategoryPhase, hnle, ho, getCat]
    · have hkc : ¬(k = c) := by
        intro hkc
        exact hk (hkc ▸ List.mem_map_of_mem Prod.fst hmem2)
      rcases consolidateCategoryPhase_cons_key oracle k v rest with ⟨w, hw⟩
      rw [hw]
      simp only [getCat, hkc, if_false]
      exact ih hnd2 c ins ins2 t κ hmem2 hge ho

/-- Claim C1 counterexample: with patterns "good good cccc" and
"good dddd eeee", the source predicate counts the duplicated token "good"
twice (2 of 3 minimum tokens, ≥ 50%) and returns true, while the claim's
count of (distinct) shared tokens is 1 (< 50% of 3), so the claimed
characterization is false. -/
theorem c1_counterexample :
    areSimilarInsights ⟨[], "", some "good good cccc"⟩ ⟨[], "", some "good dddd eeee"⟩ = true ∧
    similarInsightsClaim ⟨[], "", some "good good cccc"⟩ ⟨[], "", some "good dddd eeee"⟩
      = false := by
  constructor <;> rfl

/-- Claim C1 (amended): the similarity predicate returns true if and only if
both insights have present, non-empty patterns and, after lower-casing and
JavaScript-splitting each pattern on whitespace runs (which contributes an
empty token for leading/trailing whitespace), the count, with multiplicity,
of the first pattern's tokens that occur among the second pattern's tokens
and have length greater than 3 is at least 50% of the smaller of the two
token counts; for every pair where either pattern is empty or absent, it
returns false. -/
theorem c1_similarity_characterization (a b : Insight) :
    areSimilarInsights a b = true ↔
      ∃ p1 p2, a.pattern = some p1 ∧ b.pattern = some p2 ∧ p1 ≠ "" ∧ p2 ≠ "" ∧
        min (jsWords p1).length (jsWords p2).length ≤
          2 * commonWordCount (jsWords p1) (jsWords p2) := by
  rcases ha : a.pattern with _ | p1 <;> rcases hb : b.pattern with _ | p2 <;>
    simp [areSimilarInsights, simPat, ha, hb]
  by_cases h1 : p1 = "" <;> by_cases h2 : p2 = "" <;>
    simp [h1, h2, similarPatterns]

/-- Token list a pattern contributes to the similarity test: the JavaScript
split of the lower-cased pattern, or no tokens for an absent pattern. -/
def patTokens : Option String → List String
  | none => []
  | some p => jsWords p

/-- Claim C2 counterexample: the predicate is not symmetric, because the
shared-token count runs over the first pattern's tokens with multiplicity:
"good good cccc" vs "good dddd eeee" is similar in one order (2 ≥ 1.5) and
not in the other (1 < 1.5). -/
theorem c2_counterexample :
    areSimilarInsights ⟨[], "", some "good good cccc"⟩ ⟨[], "", some "good dddd eeee"⟩ = true ∧
    areSimilarInsights ⟨[], "", some "good dddd eeee"⟩ ⟨[], "", some "good good cccc"⟩
      = false := by
  constructor <;> rfl

/-- Claim C2 (amended): the similarity predicate is symmetric on every pair
of insights whose patterns tokenize without repeated tokens (for such
patterns the multiplicity count coincides with the distinct count in either
order). -/
theorem c2_symmetry_on_nodup_tokens (a b : Insight)
    (ha : (patTokens a.pattern).Nodup) (hb : (patTokens b.pattern).Nodup) :
    areSimilarInsights a b = areSimilarInsights b a := by
  show simPat a.pattern b.pattern = simPat b.pattern a.pattern
  rcases hpa : a.pattern with _ | p1 <;> rcases hpb : b.pattern with _ | p2
  · rfl
  · rfl
  · rfl
  · rw [hpa] at ha
    rw [hpb] at hb
    simp only [patTokens] at ha hb
    simp only [simPat]
    by_cases h1 : p1 = "" <;> by_cases h2 : p2 = "" <;> simp [h1, h2]
    unfold similarPatterns
    rw [commonWordCount_comm (jsWords p1) (jsWords p2) ha hb, Nat.min_comm]

/-- Witness for the amended C2 theorem at the concrete patterns "aaaa bbbb"
and "bbbb cccc". -/
theorem c2_symmetry_witness :
    (patTokens (some "aaaa bbbb")).Nodup ∧ (patTokens (some "bbbb cccc")).Nodup ∧
    areSimilarInsights ⟨[], "", some "aaaa bbbb"⟩ ⟨[], "", some "bbbb cccc"⟩ =
      areSimilarInsights ⟨[], "", some "bbbb cccc"⟩ ⟨[], "", some "aaaa bbbb"⟩ :=
  ⟨by decide, by decide,
    c2_symmetry_on_nodup_tokens ⟨[], "", some "aaaa bbbb"⟩ ⟨[], "", some "bbbb cccc"⟩
      (by decide) (by decide)⟩

/-- Claim C3: merging one incoming insight `i` into the accumulated insight
list of a category behaves as specified: when no existing insight is similar
to `i` (in the order the source tests, existing first), `i` is appended as a
fresh entry carrying `i`'s quotes, context and pattern; when the accumulator
splits as `pre ++ e :: post` with every insight of `pre` not similar to `i`
and `e` similar to `i` (so `e` is the first match found), exactly `e` is
updated in place: its quotes become the first-seen-order deduplicated union
of its quotes and `i`'s quotes, its context is replaced by `i`'s context
precisely when `i`'s is strictly longer, and its pattern is unchanged; all
other entries are untouched. -/
theorem c3_merge_step (acc : List Insight) (i : Insight) :
    ((∀ e ∈ acc, areSimilarInsights e i = false) →
      mergeInsightIntoList acc i =
        acc ++ [{ quotes := i.quotes, context := i.context, pattern := i.pattern }]) ∧
    (∀ pre e post, acc = pre ++ e :: post →
      (∀ x ∈ pre, areSimilarInsights x i = false) →
      areSimilarInsights e i = true →
      mergeInsightIntoList acc i =
        pre ++ { quotes := dedupFirst (e.quotes ++ i.quotes),
                 context := if e.context.length < i.context.length then i.context
                   else e.context,
                 pattern := e.pattern } :: post) := by
  constructor
  · exact mergeList_append_of_not_sim acc i
  · intro pre e post hacc hpre he
    subst hacc
    exact mergeList_found pre post e i hpre he

/-- Witness for the C3 theorem: a non-similar incoming insight is appended,
and an incoming insight similar to the head is merged into it. -/
theorem c3_merge_step_witness :
    mergeInsightIntoList [⟨["q1"], "c", some "aaaa"⟩] ⟨["q2"], "dddd", some "bbbb"⟩ =
      [⟨["q1"], "c", some "aaaa"⟩] ++ [⟨["q2"], "dddd", some "bbbb"⟩] ∧
    mergeInsightIntoList [⟨["q1"], "c", some "aaaa"⟩] ⟨["q1", "q2"], "dd", some "aaaa"⟩ =
      [] ++ ⟨dedupFirst (["q1"] ++ ["q1", "q2"]), "dd", some "aaaa"⟩ :: [] :=
  ⟨(c3_merge_step [⟨["q1"], "c", some "aaaa"⟩] ⟨["q2"], "dddd", some "bbbb"⟩).1 (by decide),
   (c3_merge_step [⟨["q1"], "c", some "aaaa"⟩] ⟨["q1", "q2"], "dd", some "aaaa"⟩).2
     [] ⟨["q1"], "c", some "aaaa"⟩ [] rfl (by decide) (by decide)⟩

/-- Batch results named in the C4 counterexample, in the original order: three
single-insight batch results in one category whose patterns chain by
similarity ("aaaa bbbb" ~ "bbbb cccc" ~ "cccc dddd") without being
transitive. -/
def permDemoA : List CategoryInsights :=
  [[("cat", [⟨[], "", some "aaaa bbbb"⟩])],
   [("cat", [⟨[], "", some "bbbb cccc"⟩])],
   [("cat", [⟨[], "", some "cccc dddd"⟩])]]

/-- The same batch results with the first two swapped. -/
def permDemoB : List CategoryInsights :=
  [[("cat", [⟨[], "", some "bbbb cccc"⟩])],
   [("cat", [⟨[], "", some "aaaa bbbb"⟩])],
   [("cat", [⟨[], "", some "cccc dddd"⟩])]]

/-- Claim C4 counterexample: the similarity predicate is not transitive, so
merge order matters: the original order produces two insights in the
category, the permuted order only one. -/
theorem c4_counterexample :
    permDemoA.Perm permDemoB ∧
    (getCat (consolidateResults permDemoA) "cat").length = 2 ∧
    (getCat (consolidateResults permDemoB) "cat").length = 1 := by
  refine ⟨?_, by decide, by decide⟩
  simp [permDemoA, permDemoB]
  exact List.Perm.swap _ _ _

/-- Claim C4 (amended): merging is order-independent when no two of the
collected insights of a category are similar (in either argument order):
for every permutation of the batch results, the merged category then holds
exactly as many insights as were collected, so the counts agree. -/
theorem c4_merge_count_perm_invariant (results results2 : List CategoryInsights)
    (c : String) (hperm : results.Perm results2)
    (hpw : (flattenAll results c).Pairwise NotSimBoth) :
    (getCat (consolidateResults results) c).length =
      (getCat (consolidateResults results2) c).length := by
  have hflat : (flattenAll results c).Perm (flattenAll results2 c) := by
    unfold flattenAll
    exact (hperm.map _).flatten
  have hpw2 : (flattenAll results2 c).Pairwise NotSimBoth :=
    (hflat.pairwise_iff (fun hab => ⟨hab.2, hab.1⟩)).1 hpw
  have h1 : getCat (consolidateResults results) c = flattenAll results c := by
    rw [getCat_consolidateResults,
      foldl_mergeList_all_append _ [] (by simp) (hpw.imp fun h => h.1)]
    simp
  have h2 : getCat (consolidateResults results2) c = flattenAll results2 c := by
    rw [getCat_consolidateResults,
      foldl_mergeList_all_append _ [] (by simp) (hpw2.imp fun h => h.1)]
    simp
  rw [h1, h2]
  exact hflat.length_eq

/-- Witness for the amended C4 theorem: two pairwise non-similar insights,
merged in both orders, give the same count. -/
theorem c4_merge_count_witness :
    ([[("cat", [⟨[], "", some "aaaa"⟩])], [("cat", [⟨[], "", some "bbbb"⟩])]] :
        List CategoryInsights).Perm
      [[("cat", [⟨[], "", some "bbbb"⟩])], [("cat", [⟨[], "", some "aaaa"⟩])]] ∧
    (getCat (consolidateResults
        [[("cat", [⟨[], "", some "aaaa"⟩])], [("cat", [⟨[], "", some "bbbb"⟩])]]) "cat").length =
      (getCat (consolidateResults
        [[("cat", [⟨[], "", some "bbbb"⟩])], [("cat", [⟨[], "", some "aaaa"⟩])]]) "cat").length :=
  ⟨List.Perm.swap _ _ _,
    c4_merge_count_perm_invariant _ _ "cat" (List.Perm.swap _ _ _) (by decide)⟩

/-- Batch results named in the C5 counterexample: the similarity test runs
with the existing insight first, so an incoming insight similar only in the
other direction is appended anyway. -/
def asymDemoResults : List CategoryInsights :=
  [[("cat", [⟨[], "", some "good dddd eeee"⟩])],
   [("cat", [⟨[], "", some "good good cccc"⟩])]]

/-- Claim C5 counterexample: the merged output holds two distinct insights in
one category that the similarity predicate, applied in one of the two
argument orders, declares similar. -/
theorem c5_counterexample :
    getCat (consolidateResults asymDemoResults) "cat" =
      [⟨[], "", some "good dddd eeee"⟩, ⟨[], "", some "good good cccc"⟩] ∧
    (⟨[], "", some "good dddd eeee"⟩ : Insight) ≠ ⟨[], "", some "good good cccc"⟩ ∧
    areSimilarInsights ⟨[], "", some "good good cccc"⟩
      ⟨[], "", some "good dddd eeee"⟩ = true := by
  refine ⟨by decide, by decide, by decide⟩

/-- Claim C5 (amended): in every merged output, for every category, the
final insight list is pairwise non-similar in insertion order: for every
earlier insight `i` and later insight `j`, `areSimilarInsights i j` is false
(the converse direction can fail, as the counterexample shows). -/
theorem c5_merger_invariant (results : List CategoryInsights) (c : String) :
    (getCat (consolidateResults results) c).Pairwise NotSim := by
  rw [getCat_consolidateResults]
  exact pairwise_foldl_mergeList _ [] (by simp)

/-- Concrete `JSON.parse` used in the closed demonstrations: the empty-object
text parses to the empty structure, everything else throws. -/
def parseDemo : String → Except String CategoryInsights :=
  fun s => if s = jsonEmptyText then .ok [] else .error "Unexpected token"

/-- Claim C6 counterexample: in the stream processor a completion call that
returns the non-JSON text "not json" makes `JSON.parse` throw inside
`processBatch`; the error is not a rate limit, so the generator rethrows and
the run aborts with that error instead of contributing an empty
`CategoryInsights` and proceeding. -/
theorem c6_counterexample :
    runStreamV2 parseDemo (fun _ _ => .ok (some "not json") 0 0) (.err "x")
      [⟨"r", 5, none⟩] 3 = some (.error "Unexpected token") := by
  have hb : createBatches 100 [(⟨"r", 5, none⟩ : Review)] = [[⟨"r", 5, none⟩]] := by
    simp [createBatches]
  simp only [runStreamV2, hb]
  rfl

/-- Claim C6 (amended): the tolerated malformed-output case is a falsy
(absent or empty) message content, which the source replaces by the
empty-object text before parsing: such a batch contributes an empty
`CategoryInsights` and does not raise, and a run all of whose batch
completions return absent content runs to completion with `reviewsProcessed`
equal to the total review count (non-JSON text instead makes the parse
exception propagate and abort the run, as the counterexample shows). -/
theorem c6_falsy_content_tolerance (parse : String → Except String CategoryInsights)
    (hparse : parse jsonEmptyText = .ok [])
    (oracle : Nat → Nat → CompletionResult)
    (horacle : ∀ b a, oracle b a = .ok none 0 0)
    (cons : CompletionResult) (reviews : List Review) (fuel : Nat)
    (hfuel : (createBatches 100 reviews).length < fuel) :
    processBatch parse (.ok none 0 0) = .ok ⟨[], 0, 0⟩ ∧
    ∃ ins st, runStreamV2 parse oracle cons reviews fuel = some (.ok (ins, st)) ∧
      st.reviewsProcessed = reviews.length := by
  constructor
  · have h := (processBatch_falsy_content parse hparse 0 0).1
    simpa [miniCost_zero] using h
  · have hloop := runStreamLoop_all_empty parse hparse oracle horacle
      (createBatches 100 reviews) fuel 0 ⟨[], 0, 0, 0⟩ (by omega)
    have hsum : ((createBatches 100 reviews).map List.length).sum = reviews.length := by
      rw [← List.length_flatten, createBatches_join 100 reviews (by omega)]
    simp only [runStreamV2, hloop]
    refine ⟨_, _, rfl, ?_⟩
    simpa using hsum

/-- Witness for the amended C6 theorem at a one-review run. -/
theorem c6_falsy_content_witness :
    parseDemo jsonEmptyText = .ok [] ∧
    (createBatches 100 [(⟨"r", 5, none⟩ : Review)]).length < 2 ∧
    (processBatch parseDemo (.ok none 0 0) = .ok ⟨[], 0, 0⟩ ∧
      ∃ ins st, runStreamV2 parseDemo (fun _ _ => .ok none 0 0) (.err "x")
          [⟨"r", 5, none⟩] 2 = some (.ok (ins, st)) ∧
        st.reviewsProcessed = ([(⟨"r", 5, none⟩ : Review)]).length) :=
  ⟨rfl, by simp [createBatches],
    c6_falsy_content_tolerance parseDemo rfl (fun _ _ => .ok none 0 0)
      (fun _ _ => rfl) (.err "x") [⟨"r", 5, none⟩] 2 (by simp [createBatches])⟩

/-- Claim C7, evaluated at the failing input: a completion error whose
message is "Request timed out" is classified as a timeout by the Edge batch
loop, which then rethrows it (the `if (!isRateLimit) throw` fires despite
the comment announcing that the loop continues), so the run aborts with the
error and the second batch is never processed — the claim instead requires
the run to continue to the next batch with the timed-out batch omitted. -/
theorem c7_timeout_aborts_run :
    runEdgeLoop parseDemo
      (fun b _ => if b = 0 then .err "Request timed out" else .ok none 0 0)
      [[⟨"r", 5, none⟩], [⟨"s", 4, none⟩]] 5 0 0 ⟨[], 0, 0, 0⟩ =
      some (.error "Request timed out") := by
  rfl

/-- Claim C8: whenever the completion collaborator fails during AI
consolidation — the call throws, or its content fails to parse — the
consolidation step returns exactly the merged input with zero tokens used
and zero cost, in both the plain and the stream variant; the failure never
propagates (the function is total). -/
theorem c8_consolidation_fallback (parse : String → Except String CategoryInsights)
    (merged : CategoryInsights) (r : CompletionResult)
    (hfail : (∃ m, r = .err m) ∨
      (∃ content pt ct e, r = .ok content pt ct ∧
        parse (falsyDefault content) = .error e)) :
    aiConsolidation parse r merged = ⟨merged, 0, 0⟩ ∧
    ∀ allResults, aiConsolidationV2 parse r allResults =
      ⟨concatMerge allResults, 0, 0⟩ := by
  have h : ∀ m2 : CategoryInsights, aiConsolidation parse r m2 = ⟨m2, 0, 0⟩ := by
    intro m2
    rcases hfail with ⟨m, rfl⟩ | ⟨content, pt, ct, e, rfl, hp⟩
    · rfl
    · simp [aiConsolidation, hp]
  exact ⟨h merged, fun rs => by simpa [aiConsolidationV2] using h (concatMerge rs)⟩

/-- Witness for the C8 theorem: a throwing consolidation call falls back to
the merged input. -/
theorem c8_consolidation_witness :
    aiConsolidation parseDemo (.err "network error")
      [("cat", [⟨["q"], "c", some "p"⟩])] = ⟨[("cat", [⟨["q"], "c", some "p"⟩])], 0, 0⟩ :=
  (c8_consolidation_fallback parseDemo [("cat", [⟨["q"], "c", some "p"⟩])]
    (.err "network error") (Or.inl ⟨"network error", rfl⟩)).1

/-- Claim C9: for every review sequence and batch size B > 0, the batcher
returns ceil(n / B) batches, concatenating them reproduces the input exactly
(so the batches are contiguous slices in order, with no reordering or
filtering), every batch except possibly the last has size exactly B, every
batch is non-empty of size at most B, the last batch has the remainder size
((n - 1) mod B + 1, which is n mod B when B does not divide n and B when it
does), and the empty input yields the empty batch sequence rather than an
error. -/
theorem c9_createBatches_spec (B : Nat) (hB : 0 < B) (l : List Review) :
    (createBatches B l).length = (l.length + B - 1) / B ∧
    (createBatches B l).flatten = l ∧
    (∀ b ∈ (createBatches B l).dropLast, b.length = B) ∧
    (∀ b ∈ createBatches B l, 0 < b.length ∧ b.length ≤ B) ∧
    (l ≠ [] → ∃ lb, (createBatches B l).getLast? = some lb ∧
      lb.length = (l.length - 1) % B + 1) ∧
    createBatches B ([] : List Review) = [] :=
  ⟨createBatches_length B l hB, createBatches_join B l hB,
   createBatches_dropLast_len B l hB, createBatches_mem_len B l hB,
   fun hl => createBatches_getLast B l hB hl, createBatches_nil B⟩

/-- Witness for the C9 theorem: three reviews in batches of two concatenate
back to the input. -/
theorem c9_createBatches_witness :
    (createBatches 2 ([⟨"a", 5, none⟩, ⟨"b", 4, none⟩, ⟨"c", 3, none⟩] :
      List Review)).flatten = [⟨"a", 5, none⟩, ⟨"b", 4, none⟩, ⟨"c", 3, none⟩] :=
  (c9_createBatches_spec 2 (by decide)
    [⟨"a", 5, none⟩, ⟨"b", 4, none⟩, ⟨"c", 3, none⟩]).2.1

/-- Claim C10: in the final per-category consolidation, a category holding at
most 3 insights is passed through unchanged — its insights are returned as
they are, independently of the consolidation collaborator, with zero token
and cost contribution when all categories are that small — while a category
holding 4 or more insights is eligible: the collaborator is invoked on it
and a successful response replaces its insights. -/
theorem c10_consolidator_skip_rule (m : CategoryInsights)
    (hnd : (m.map Prod.fst).Nodup) :
    (∀ oracle c ins, (c, ins) ∈ m → ins.length ≤ 3 →
      getCat (consolidateCategoryPhase oracle m).1 c = ins) ∧
    (∀ oracle, (∀ e ∈ m, e.2.length ≤ 3) →
      consolidateCategoryPhase oracle m = (m, 0, 0)) ∧
    (∀ oracle c ins ins2 t κ, (c, ins) ∈ m → 4 ≤ ins.length →
      oracle c ins = some (ins2, t, κ) →
      getCat (consolidateCategoryPhase oracle m).1 c = ins2) :=
  ⟨fun oracle c ins hm hle =>
      getCat_consolidateCategoryPhase_skip oracle m hnd c ins hm hle,
   fun oracle hall => consolidateCategoryPhase_all_small oracle m hall,
   fun oracle c ins ins2 t κ hm hge ho =>
      getCat_consolidateCategoryPhase_eligible oracle m hnd c ins ins2 t κ hm hge ho⟩

/-- Witness for the C10 theorem: a three-insight category is passed through
unchanged even when the collaborator would rewrite it, and a four-insight
category receives the collaborator's answer. -/
theorem c10_consolidator_skip_witness :
    ((([("a", List.replicate 3 (⟨[], "", none⟩ : Insight)),
        ("b", List.replicate 4 (⟨[], "", none⟩ : Insight))] :
        CategoryInsights).map Prod.fst).Nodup) ∧
    getCat (consolidateCategoryPhase (fun _ _ => some ([], 7, 0))
        [("a", List.replicate 3 ⟨[], "", none⟩),
         ("b", List.replicate 4 ⟨[], "", none⟩)]).1 "a" =
      List.replicate 3 ⟨[], "", none⟩ ∧
    getCat (consolidateCategoryPhase (fun _ _ => some ([], 7, 0))
        [("a", List.replicate 3 ⟨[], "", none⟩),
         ("b", List.replicate 4 ⟨[], "", none⟩)]).1 "b" = [] :=
  ⟨by decide,
   (c10_consolidator_skip_rule _ (by decide)).1 (fun _ _ => some ([], 7, 0)) "a"
     (List.replicate 3 ⟨[], "", none⟩) (by decide) (by decide),
   (c10_consolidator_skip_rule _ (by decide)).2.2 (fun _ _ => some ([], 7, 0)) "b"
     (List.replicate 4 ⟨[], "", none⟩) [] 7 0 (by decide) (by decide) rfl⟩
